import Mathlib

/-
Verification of the wave-function-collapse engine in `pkg/wfc/wave.go`
(repository TLINDEN/go-wfc).

The embedding is a shallow functional model of the Go code.  Modules are an
abstract type `M`; Go module *pointers* are modelled by values of `M`
(identity-relevant data), and Go slot pointers by the slot's flat index in
`PossibilitySpace` (every slot is a distinct allocation created once by
`Initialize`, so pointer identity coincides with the flat index).  In-place
mutation is modelled by explicit state passing: every operation that mutates
the `Wave` returns the new `Wave`.  The global `math/rand` source is modelled
by an explicit stream of pre-drawn numbers (`List Nat`, one entry per call to
`rand.Intn`, with `rand.Intn n` modelled as `r % n`); Go's recursion is
modelled with an explicit fuel parameter, with a dedicated `giveup` result
when the modelled fuel or random stream runs out (an artifact of the
embedding, distinct from the code's only error value `ErrNoSolution`).

Go `int` coordinates are modelled by `Nat`: all coordinates the code ever
stores are non-negative, and the boundary tests (`s.Y > 0`, `s.Y < h-1`, …)
agree with the Go integer tests on non-negative inputs (for `h = 0` both
`y < h - 1` readings are false for every stored `y`).
-/

namespace Wfc

/-- Modelled from the spec (the `Direction` declaration is outside the given
source file): the enumeration {Up, Down, Left, Right} of §3 of the spec,
used by `wave.go` in its `switch` statements. -/
inductive Direction where
  | up
  | down
  | left
  | right
deriving DecidableEq, Repr

/-- Modelled from the spec (the `Directions` list is declared outside the
given source file): the list of all four directions, in the enumeration
order of §3, ranged over by `Recurse`'s `for _, d := range Directions`. -/
def Directions : List Direction := [.up, .down, .left, .right]

/-- One grid cell (`Slot` in the Go code): coordinates plus the current
superposition.  The fields are exactly the ones `wave.go` constructs in
`Initialize` (`Slot{X: x, Y: y, Superposition: …}`). -/
structure Slot (M : Type) where
  x : Nat
  y : Nat
  superposition : List M
deriving Repr

/-- The `Wave` struct of `wave.go`.  `possibilitySpace` is the flat row-major
array of slots, `history` the slice of visited slots (slot pointers modelled
by flat indices), `isPossibleFn` the pluggable compatibility predicate
(receiving the candidate module, both slot values and the direction, as in
Go). -/
structure Wave (M : Type) where
  width : Nat
  height : Nat
  input : List M
  possibilitySpace : List (Slot M)
  history : List Nat
  isPossibleFn : M → Slot M → Slot M → Direction → Bool

/-- A wave together with the remaining modelled random stream. -/
structure RState (M : Type) where
  wave : Wave M
  rng : List Nat

/-- Result of a modelled run: `ok` = Go `nil` error, `err` = Go
`ErrNoSolution` ("no possible modules for slot"); in both cases the carried
state is the mutated wave at the moment of return.  `giveup` arises only
when the modelled fuel or random stream is exhausted (embedding artifact). -/
inductive RecRes (M : Type) where
  | ok : RState M → RecRes M
  | err : RState M → RecRes M
  | giveup : RecRes M

/-- Dereference a slot pointer (= flat index).  Out-of-range access (which
would panic in Go and never happens on the in-range indices the code uses)
returns a dummy slot. -/
def Wave.getIdx (w : Wave M) (i : Nat) : Slot M :=
  w.possibilitySpace.getD i ⟨0, 0, []⟩

/-- Write back through a slot pointer (= flat index). -/
def Wave.setIdx (w : Wave M) (i : Nat) (s : Slot M) : Wave M :=
  { w with possibilitySpace := w.possibilitySpace.set i s }

/-- The in-place mutation `slot.Superposition = s` of `wave.go`, addressed by
flat index: coordinates are untouched. -/
def Wave.setSup (w : Wave M) (i : Nat) (sup : List M) : Wave M :=
  w.setIdx i { w.getIdx i with superposition := sup }

/-- `Wave.GetSlot`: `w.PossibilitySpace[x+y*w.Width]`. -/
def Wave.getSlot (w : Wave M) (x y : Nat) : Slot M :=
  w.getIdx (x + y * w.width)

/-- `Wave.HasNeighbor`: pure bounds checks on the slot's coordinates. -/
def Wave.hasNeighbor (w : Wave M) (s : Slot M) (d : Direction) : Bool :=
  match d with
  | .up => 0 < s.y
  | .down => s.y < w.height - 1
  | .left => 0 < s.x
  | .right => s.x < w.width - 1

/-- `Wave.GetNeighbor`: the slot one step away in direction `d` (only called
by the code under a `HasNeighbor` guard). -/
def Wave.getNeighbor (w : Wave M) (s : Slot M) (d : Direction) : Slot M :=
  match d with
  | .up => w.getSlot s.x (s.y - 1)
  | .down => w.getSlot s.x (s.y + 1)
  | .left => w.getSlot (s.x - 1) s.y
  | .right => w.getSlot (s.x + 1) s.y

/-- The flat index of the neighbor returned by `GetNeighbor`; this is the
identity of the neighbor slot pointer. -/
def Wave.neighborIdx (w : Wave M) (s : Slot M) (d : Direction) : Nat :=
  match d with
  | .up => s.x + (s.y - 1) * w.width
  | .down => s.x + (s.y + 1) * w.width
  | .left => (s.x - 1) + s.y * w.width
  | .right => (s.x + 1) + s.y * w.width

/-- `Wave.HasVisited`: linear scan of `History` comparing slot pointers
(= flat indices). -/
def Wave.hasVisited (w : Wave M) (i : Nat) : Bool :=
  w.history.any (fun h => h == i)

/-- `Wave.IsCollapsed`: false iff some slot still has more than one
candidate (slots with 0 candidates count as collapsed). -/
def Wave.isCollapsed (w : Wave M) : Bool :=
  w.possibilitySpace.all (fun s => s.superposition.length ≤ 1)

/-- `Wave.GetPossibleModules`: starts from the empty slice and appends every
module of `b`'s current superposition accepted by `IsPossibleFn`. -/
def Wave.getPossibleModules (w : Wave M) (a b : Slot M) (d : Direction) : List M :=
  b.superposition.foldl (fun res m => if w.isPossibleFn m a b d then res ++ [m] else res) []

/-- Modelled from the spec (the `Slot.Collapse` method is outside the given
source file): §4.2, pick one candidate of the current superposition at
random (here: the next random draw `r`, uniform via `r % len`) and replace
the superposition with the single-element list containing it. -/
def Slot.collapse (s : Slot M) (r : Nat) : Slot M :=
  match s.superposition.get? (r % s.superposition.length) with
  | some m => { s with superposition := [m] }
  | none => s

/-- The rejection-sampling loop of `Wave.CollapseRandomSlot`: draw a random
slot index, skip it if already collapsed, otherwise collapse it (consuming a
second draw inside `Slot.Collapse`) and return it.  Exhaustion of the
modelled random stream yields `none`. -/
def Wave.collapseRandomSlotGo (w : Wave M) : List Nat → Option (Nat × Wave M × List Nat)
  | [] => none
  | r :: rest =>
    let i := r % w.possibilitySpace.length
    if (w.getIdx i).superposition.length ≤ 1 then
      Wave.collapseRandomSlotGo w rest
    else
      match rest with
      | [] => none
      | r2 :: rest2 => some (i, w.setIdx i ((w.getIdx i).collapse r2), rest2)

/-- `Wave.CollapseRandomSlot`: count the collapsed slots; if every slot is
collapsed return `nil` (here `none`); otherwise run the rejection loop. -/
def Wave.collapseRandomSlot (w : Wave M) (rng : List Nat) : Option (Nat × Wave M × List Nat) :=
  let numCollapsed := w.possibilitySpace.countP (fun s => s.superposition.length ≤ 1)
  if numCollapsed = w.possibilitySpace.length then none
  else w.collapseRandomSlotGo rng

/-- The `for _, d := range Directions` loop body of `Wave.Recurse`,
parameterised by the recursive call `rec` (which `Wave.recurse` instantiates
with itself at one unit of fuel less).  `pi` is the flat index of
`previous`.  Guards appear in the code's order: neighbor existence, visit
check, fixed-point size check, install of the filtered set, contradiction
check, push / recurse / pop. -/
def Wave.recurseDirs (rec : Wave M → List Nat → RecRes M) (w : Wave M) (rng : List Nat)
    (pi : Nat) : List Direction → RecRes M
  | [] => .ok ⟨w, rng⟩
  | d :: ds =>
    if w.hasNeighbor (w.getIdx pi) d then
      let ni := w.neighborIdx (w.getIdx pi) d
      if w.hasVisited ni then
        Wave.recurseDirs rec w rng pi ds
      else
        let s := w.getPossibleModules (w.getIdx pi) (w.getIdx ni) d
        if s.length = (w.getIdx ni).superposition.length then
          Wave.recurseDirs rec w rng pi ds
        else
          let w2 := w.setSup ni s
          if s.length = 0 then
            .err ⟨w2, rng⟩
          else
            let w3 := { w2 with history := w2.history ++ [ni] }
            match rec w3 rng with
            | .ok s4 =>
              Wave.recurseDirs rec { s4.wave with history := s4.wave.history.dropLast }
                s4.rng pi ds
            | r => r
    else
      Wave.recurseDirs rec w rng pi ds

/-- `Wave.Recurse`: success if the grid is fully collapsed; otherwise, when
no propagation is in progress, collapse a random slot and push it; then run
the direction loop from the most recently pushed slot.  `fuel` bounds the
recursion depth of the model (the Go code recurses on the native stack). -/
def Wave.recurse (fuel : Nat) (w : Wave M) (rng : List Nat) : RecRes M :=
  match fuel with
  | 0 => .giveup
  | f + 1 =>
    if w.isCollapsed then .ok ⟨w, rng⟩
    else
      match w.history with
      | [] =>
        match w.collapseRandomSlot rng with
        | none => .giveup
        | some (i, w1, rng1) =>
          let wA : Wave M := { w1 with history := w1.history ++ [i] }
          Wave.recurseDirs (fun w2 r2 => Wave.recurse f w2 r2) wA rng1
            (wA.history.getLastD 0) Directions
      | _ :: _ =>
        Wave.recurseDirs (fun w2 r2 => Wave.recurse f w2 r2) w rng
          (w.history.getLastD 0) Directions

/-- `Wave.Collapse`: run `Recurse` once per attempt, aborting on the first
error (which is returned as-is) and resetting `History` to an empty slice
after every successful attempt. -/
def Wave.collapse (w : Wave M) (attempts fuel : Nat) (rng : List Nat) : RecRes M :=
  match attempts with
  | 0 => .ok ⟨w, rng⟩
  | a + 1 =>
    match Wave.recurse fuel w rng with
    | .ok s => Wave.collapse { s.wave with history := [] } a fuel s.rng
    | r => r

/-- `Wave.Initialize`: allocate the flat array of `Width*Height` slots and
fill it with the double loop over `x` then `y`, each slot holding a copy of
the full input catalog (the `rand.Seed` call is part of the modelled random
stream, not of the state). -/
def Wave.initializeSlots (w : Wave M) : Wave M :=
  { w with possibilitySpace :=
      ((List.range w.width).foldl (fun acc x =>
        (List.range w.height).foldl (fun acc2 y =>
          acc2.set (x + y * w.width) ⟨x, y, w.input⟩) acc)
        (List.replicate (w.width * w.height) ⟨0, 0, []⟩)) }

/-- One primitive drawing action of the shallow rendering model of
`ExportImage`. -/
inductive DrawOp (M : Type) where
  | tile : Nat → Nat → M → DrawOp M
  | redFill : Nat → Nat → DrawOp M
deriving DecidableEq, Repr

/-- Shallow model of `Wave.ExportImage`: `dims` abstracts
`Module.Image.Bounds().Max` (tile width and height).  The unguarded
`w.Input[0]` access of the Go code is modelled by `get? 0`; the `none`
result models the Go index-out-of-range panic on an empty catalog.  The
returned value is the canvas size together with the list of draw operations
(one `tile` per collapsed slot, one `redFill` per contradicted slot, in
grid order). -/
def Wave.exportImage (w : Wave M) (dims : M → Nat × Nat) :
    Option (Nat × Nat × List (DrawOp M)) :=
  match w.input.get? 0 with
  | none => none
  | some m0 =>
    let u := (dims m0).1
    let v := (dims m0).2
    some (w.width * u, w.height * v,
      w.possibilitySpace.foldl (fun ops s =>
        let ops1 := match s.superposition with
          | [m] => ops ++ [DrawOp.tile s.x s.y m]
          | _ => ops
        if s.superposition.length = 0 then ops1 ++ [DrawOp.redFill s.x s.y] else ops1) [])

/-! ### Basic facts about the state accessors -/

@[simp] theorem Wave.width_setIdx (w : Wave M) (i : Nat) (s : Slot M) :
    (w.setIdx i s).width = w.width := rfl

@[simp] theorem Wave.height_setIdx (w : Wave M) (i : Nat) (s : Slot M) :
    (w.setIdx i s).height = w.height := rfl

@[simp] theorem Wave.input_setIdx (w : Wave M) (i : Nat) (s : Slot M) :
    (w.setIdx i s).input = w.input := rfl

@[simp] theorem Wave.history_setIdx (w : Wave M) (i : Nat) (s : Slot M) :
    (w.setIdx i s).history = w.history := rfl

@[simp] theorem Wave.isPossibleFn_setIdx (w : Wave M) (i : Nat) (s : Slot M) :
    (w.setIdx i s).isPossibleFn = w.isPossibleFn := rfl

@[simp] theorem Wave.length_setIdx (w : Wave M) (i : Nat) (s : Slot M) :
    (w.setIdx i s).possibilitySpace.length = w.possibilitySpace.length := by
  simp [Wave.setIdx]

theorem Wave.getIdx_lt (w : Wave M) {k : Nat} (h : k < w.possibilitySpace.length) :
    w.getIdx k = w.possibilitySpace[k] := by
  simp [Wave.getIdx, List.getD_eq_getElem?_getD, List.getElem?_eq_getElem h]

theorem Wave.getIdx_ge (w : Wave M) {k : Nat} (h : w.possibilitySpace.length ≤ k) :
    w.getIdx k = ⟨0, 0, []⟩ := by
  simp [Wave.getIdx, List.getD_eq_getElem?_getD, List.getElem?_eq_none h]

theorem Wave.getIdx_setIdx_self (w : Wave M) {i : Nat} (s : Slot M)
    (h : i < w.possibilitySpace.length) : (w.setIdx i s).getIdx i = s := by
  simp [Wave.setIdx, Wave.getIdx, List.getD_eq_getElem?_getD, List.getElem?_set_self h]

theorem Wave.getIdx_setIdx_ne (w : Wave M) {i j : Nat} (s : Slot M) (h : i ≠ j) :
    (w.setIdx i s).getIdx j = w.getIdx j := by
  simp [Wave.setIdx, Wave.getIdx, List.getD_eq_getElem?_getD, List.getElem?_set_ne h]

@[simp] theorem Wave.width_setSup (w : Wave M) (i : Nat) (sup : List M) :
    (w.setSup i sup).width = w.width := rfl

@[simp] theorem Wave.height_setSup (w : Wave M) (i : Nat) (sup : List M) :
    (w.setSup i sup).height = w.height := rfl

@[simp] theorem Wave.input_setSup (w : Wave M) (i : Nat) (sup : List M) :
    (w.setSup i sup).input = w.input := rfl

@[simp] theorem Wave.history_setSup (w : Wave M) (i : Nat) (sup : List M) :
    (w.setSup i sup).history = w.history := rfl

@[simp] theorem Wave.isPossibleFn_setSup (w : Wave M) (i : Nat) (sup : List M) :
    (w.setSup i sup).isPossibleFn = w.isPossibleFn := rfl

@[simp] theorem Wave.length_setSup (w : Wave M) (i : Nat) (sup : List M) :
    (w.setSup i sup).possibilitySpace.length = w.possibilitySpace.length := by
  simp [Wave.setSup]

theorem Wave.getIdx_setSup_self (w : Wave M) {i : Nat} (sup : List M)
    (h : i < w.possibilitySpace.length) :
    (w.setSup i sup).getIdx i = { w.getIdx i with superposition := sup } := by
  simp [Wave.setSup, Wave.getIdx_setIdx_self _ _ h]

theorem Wave.getIdx_setSup_ne (w : Wave M) {i j : Nat} (sup : List M) (h : i ≠ j) :
    (w.setSup i sup).getIdx j = w.getIdx j := by
  simp [Wave.setSup, Wave.getIdx_setIdx_ne _ _ h]

/-! ### `GetPossibleModules` is the filter of the neighbor's superposition -/

theorem foldl_append_eq_filter (p : α → Bool) :
    ∀ (l acc : List α),
      l.foldl (fun res m => if p m then res ++ [m] else res) acc = acc ++ l.filter p := by
  intro l
  induction l with
  | nil => intro acc; simp
  | cons a l ih =>
    intro acc
    by_cases h : p a = true <;>
      simp [List.foldl_cons, List.filter_cons, h, ih]

theorem Wave.getPossibleModules_eq_filter (w : Wave M) (a b : Slot M) (d : Direction) :
    w.getPossibleModules a b d
      = b.superposition.filter (fun m => w.isPossibleFn m a b d) := by
  simpa using foldl_append_eq_filter (fun m => w.isPossibleFn m a b d) b.superposition []

theorem Wave.getPossibleModules_sublist (w : Wave M) (a b : Slot M) (d : Direction) :
    (w.getPossibleModules a b d).Sublist b.superposition := by
  rw [Wave.getPossibleModules_eq_filter]
  exact List.filter_sublist _

/-! ### `HasVisited` and `IsCollapsed` -/

theorem Wave.hasVisited_iff (w : Wave M) (i : Nat) :
    w.hasVisited i = true ↔ i ∈ w.history := by
  simp [Wave.hasVisited, List.any_eq_true]

theorem Wave.hasVisited_eq_false (w : Wave M) (i : Nat) :
    w.hasVisited i = false ↔ i ∉ w.history := by
  rw [← Wave.hasVisited_iff]
  cases h : w.hasVisited i <;> simp [h]

theorem Wave.isCollapsed_iff (w : Wave M) :
    w.isCollapsed = true
      ↔ ∀ k, k < w.possibilitySpace.length → (w.getIdx k).superposition.length ≤ 1 := by
  simp only [Wave.isCollapsed, List.all_eq_true, decide_eq_true_eq]
  constructor
  · intro h k hk
    rw [Wave.getIdx_lt _ hk]
    exact h _ (w.possibilitySpace.getElem_mem hk)
  · intro h s hs
    obtain ⟨k, hk, rfl⟩ := List.mem_iff_getElem.mp hs
    rw [← Wave.getIdx_lt _ hk]
    exact h k hk

/-! ### Well-formedness and the shrink order on wave states -/

/-- The state invariant established by `Initialize` and preserved by the
engine: the flat array has `Width*Height` entries, the history holds
pairwise distinct in-range slot pointers, and the slot stored at flat index
`k` carries in-range coordinates whose row-major encoding is `k` (so slot
pointers and coordinates determine each other). -/
def Wave.WF (w : Wave M) : Prop :=
  w.possibilitySpace.length = w.width * w.height ∧
  w.history.Nodup ∧
  (∀ i ∈ w.history, i < w.possibilitySpace.length) ∧
  ∀ k, k < w.possibilitySpace.length →
    (w.getIdx k).x < w.width ∧ (w.getIdx k).y < w.height ∧
      (w.getIdx k).x + (w.getIdx k).y * w.width = k

instance (w : Wave M) : Decidable w.WF := by
  unfold Wave.WF
  infer_instance

/-- `w.Shrinks w'`: `w'` is obtained from `w` without touching the grid
geometry or the catalog, with every slot keeping its coordinates and its
superposition only losing elements (order preserved). -/
def Wave.Shrinks (w w' : Wave M) : Prop :=
  w'.width = w.width ∧ w'.height = w.height ∧ w'.input = w.input ∧
  w'.possibilitySpace.length = w.possibilitySpace.length ∧
  ∀ k, (w'.getIdx k).x = (w.getIdx k).x ∧ (w'.getIdx k).y = (w.getIdx k).y ∧
    (w'.getIdx k).superposition.Sublist (w.getIdx k).superposition

theorem Wave.Shrinks.refl (w : Wave M) : w.Shrinks w :=
  ⟨rfl, rfl, rfl, rfl, fun _ => ⟨rfl, rfl, List.Sublist.refl _⟩⟩

theorem Wave.Shrinks.trans {w1 w2 w3 : Wave M} (h12 : w1.Shrinks w2)
    (h23 : w2.Shrinks w3) : w1.Shrinks w3 := by
  obtain ⟨a12, b12, c12, d12, e12⟩ := h12
  obtain ⟨a23, b23, c23, d23, e23⟩ := h23
  refine ⟨a23.trans a12, b23.trans b12, c23.trans c12, d23.trans d12, fun k => ?_⟩
  obtain ⟨x12, y12, s12⟩ := e12 k
  obtain ⟨x23, y23, s23⟩ := e23 k
  exact ⟨x23.trans x12, y23.trans y12, s23.trans s12⟩

/-- Changing only the history leaves the shrink data untouched. -/
theorem Wave.shrinks_setHistory (w : Wave M) (h : List Nat) :
    w.Shrinks { w with history := h } :=
  ⟨rfl, rfl, rfl, rfl, fun _ => ⟨rfl, rfl, List.Sublist.refl _⟩⟩

theorem Wave.shrinks_setSup (w : Wave M) {i : Nat} {sup : List M}
    (hsub : sup.Sublist (w.getIdx i).superposition) :
    w.Shrinks (w.setSup i sup) := by
  refine ⟨rfl, rfl, rfl, by simp, fun k => ?_⟩
  by_cases hik : i = k
  · subst hik
    by_cases hi : i < w.possibilitySpace.length
    · rw [Wave.getIdx_setSup_self _ _ hi]
      exact ⟨rfl, rfl, hsub⟩
    · rw [Wave.setSup, Wave.setIdx, Wave.getIdx, List.getD_eq_getElem?_getD,
        List.getElem?_eq_none (by simpa using Nat.le_of_not_lt hi)]
      rw [Wave.getIdx_ge _ (Nat.le_of_not_lt hi)]
      exact ⟨rfl, rfl, List.Sublist.refl _⟩
  · rw [Wave.getIdx_setSup_ne _ _ hik]
    exact ⟨rfl, rfl, List.Sublist.refl _⟩

/-- A slot whose flat index is in range of a well-formed grid has in-range
coordinates encoding that index. -/
theorem Wave.WF.coords {w : Wave M} (hWF : w.WF) {k : Nat}
    (hk : k < w.possibilitySpace.length) :
    (w.getIdx k).x < w.width ∧ (w.getIdx k).y < w.height ∧
      (w.getIdx k).x + (w.getIdx k).y * w.width = k :=
  hWF.2.2.2 k hk

theorem idx_lt_of_coords {x y wd ht : Nat} (hx : x < wd) (hy : y < ht) :
    x + y * wd < wd * ht := by
  calc x + y * wd < wd + y * wd := by omega
  _ = (y + 1) * wd := by ring
  _ ≤ ht * wd := Nat.mul_le_mul_right wd hy
  _ = wd * ht := Nat.mul_comm ht wd

/-- Row-major encodings of in-range coordinates are injective. -/
theorem coords_inj {x1 y1 x2 y2 wd : Nat} (hx1 : x1 < wd) (hx2 : x2 < wd)
    (h : x1 + y1 * wd = x2 + y2 * wd) : x1 = x2 ∧ y1 = y2 := by
  have hm1 : (x1 + y1 * wd) % wd = x1 := by
    rw [Nat.add_mul_mod_self_right]; exact Nat.mod_eq_of_lt hx1
  have hm2 : (x2 + y2 * wd) % wd = x2 := by
    rw [Nat.add_mul_mod_self_right]; exact Nat.mod_eq_of_lt hx2
  have hx : x1 = x2 := by rw [← hm1, ← hm2, h]
  refine ⟨hx, ?_⟩
  have hw : 0 < wd := by omega
  have : y1 * wd = y2 * wd := by omega
  exact Nat.eq_of_mul_eq_mul_right hw this

/-- In a well-formed grid, the neighbor index computed for an in-range slot
under a true `hasNeighbor` guard is in range, and the slot stored there
carries exactly the shifted coordinates. -/
theorem Wave.neighborIdx_spec {w : Wave M} (hWF : w.WF) {k : Nat}
    (hk : k < w.possibilitySpace.length) {d : Direction}
    (hnb : w.hasNeighbor (w.getIdx k) d = true) :
    w.neighborIdx (w.getIdx k) d < w.possibilitySpace.length ∧
    (match d with
      | .up => (w.getIdx k).x + ((w.getIdx k).y - 1) * w.width
      | .down => (w.getIdx k).x + ((w.getIdx k).y + 1) * w.width
      | .left => ((w.getIdx k).x - 1) + (w.getIdx k).y * w.width
      | .right => ((w.getIdx k).x + 1) + (w.getIdx k).y * w.width)
      = w.neighborIdx (w.getIdx k) d := by
  obtain ⟨hx, hy, _⟩ := hWF.coords hk
  have hn : w.possibilitySpace.length = w.width * w.height := hWF.1
  cases d with
  | up =>
    simp only [Wave.hasNeighbor, decide_eq_true_eq] at hnb
    refine ⟨?_, rfl⟩
    rw [Wave.neighborIdx, hn]
    exact idx_lt_of_coords hx (by omega)
  | down =>
    simp only [Wave.hasNeighbor, decide_eq_true_eq] at hnb
    refine ⟨?_, rfl⟩
    rw [Wave.neighborIdx, hn]
    exact idx_lt_of_coords hx (by omega)
  | left =>
    simp only [Wave.hasNeighbor, decide_eq_true_eq] at hnb
    refine ⟨?_, rfl⟩
    rw [Wave.neighborIdx, hn]
    exact idx_lt_of_coords (by omega) hy
  | right =>
    simp only [Wave.hasNeighbor, decide_eq_true_eq] at hnb
    refine ⟨?_, rfl⟩
    rw [Wave.neighborIdx, hn]
    exact idx_lt_of_coords (by omega) hy

/-! ### `CollapseRandomSlot` picks an uncollapsed slot and collapses it -/

theorem Slot.collapse_spec (s : Slot M) (r : Nat) (h : 0 < s.superposition.length) :
    ∃ m ∈ s.superposition, s.collapse r = { s with superposition := [m] } := by
  have hlt : r % s.superposition.length < s.superposition.length := Nat.mod_lt _ h
  refine ⟨s.superposition[r % s.superposition.length], List.getElem_mem hlt, ?_⟩
  simp [Slot.collapse, List.get?_eq_getElem?, List.getElem?_eq_getElem hlt]

theorem Wave.collapseRandomSlotGo_spec (w : Wave M) :
    ∀ (rng : List Nat) (i : Nat) (w1 : Wave M) (rng1 : List Nat),
      w.collapseRandomSlotGo rng = some (i, w1, rng1) →
      i < w.possibilitySpace.length ∧ 1 < (w.getIdx i).superposition.length ∧
        ∃ m ∈ (w.getIdx i).superposition,
          w1 = w.setIdx i { w.getIdx i with superposition := [m] } := by
  intro rng
  induction rng with
  | nil => intro i w1 rng1 h; simp [Wave.collapseRandomSlotGo] at h
  | cons r rest ih =>
    intro i w1 rng1 h
    simp only [Wave.collapseRandomSlotGo] at h
    by_cases hc : (w.getIdx (r % w.possibilitySpace.length)).superposition.length ≤ 1
    · rw [if_pos hc] at h
      exact ih i w1 rng1 h
    · rw [if_neg hc] at h
      cases rest with
      | nil => simp at h
      | cons r2 rest2 =>
        have hlen : 0 < w.possibilitySpace.length := by
          by_contra hn
          rw [Wave.getIdx_ge _ (by omega)] at hc
          simp at hc
        simp only [Option.some.injEq, Prod.mk.injEq] at h
        obtain ⟨hi, hw1, hrng⟩ := h
        subst hi
        obtain ⟨m, hm, hcol⟩ :=
          Slot.collapse_spec (w.getIdx (r % w.possibilitySpace.length)) r2 (by omega)
        exact ⟨Nat.mod_lt _ hlen, by omega, m, hm, by rw [← hw1, hcol]⟩

theorem Wave.collapseRandomSlot_spec (w : Wave M) (rng : List Nat) (i : Nat)
    (w1 : Wave M) (rng1 : List Nat)
    (h : w.collapseRandomSlot rng = some (i, w1, rng1)) :
    i < w.possibilitySpace.length ∧ 1 < (w.getIdx i).superposition.length ∧
      ∃ m ∈ (w.getIdx i).superposition,
        w1 = w.setIdx i { w.getIdx i with superposition := [m] } := by
  rw [Wave.collapseRandomSlot] at h
  by_cases hall : w.possibilitySpace.countP (fun s => s.superposition.length ≤ 1)
      = w.possibilitySpace.length
  · simp [hall] at h
  · rw [if_neg hall] at h
    exact w.collapseRandomSlotGo_spec rng i w1 rng1 h

/-! ### `Initialize` fills the grid with full-catalog slots -/

/-- The inner (`y`) loop of `Initialize`. -/
def initInner (wd : Nat) (inp : List M) (x : Nat) (ys : List Nat)
    (acc : List (Slot M)) : List (Slot M) :=
  ys.foldl (fun a2 y => a2.set (x + y * wd) ⟨x, y, inp⟩) acc

/-- The outer (`x`) loop of `Initialize`. -/
def initOuter (wd ht : Nat) (inp : List M) (xs : List Nat)
    (acc : List (Slot M)) : List (Slot M) :=
  xs.foldl (fun a x => initInner wd inp x (List.range ht) a) acc

theorem Wave.initialize_eq_initOuter (w : Wave M) :
    w.initializeSlots = { w with possibilitySpace :=
      (initOuter w.width w.height w.input (List.range w.width)
        (List.replicate (w.width * w.height) ⟨0, 0, []⟩)) } := rfl

theorem initInner_length (wd : Nat) (inp : List M) (x : Nat) :
    ∀ (ys : List Nat) (acc : List (Slot M)), (initInner wd inp x ys acc).length = acc.length := by
  intro ys
  induction ys with
  | nil => intro acc; rfl
  | cons y ys ih => intro acc; rw [initInner, List.foldl_cons, ← initInner, ih, List.length_set]

theorem initOuter_length (wd ht : Nat) (inp : List M) :
    ∀ (xs : List Nat) (acc : List (Slot M)), (initOuter wd ht inp xs acc).length = acc.length := by
  intro xs
  induction xs with
  | nil => intro acc; rfl
  | cons x xs ih =>
    intro acc
    rw [initOuter, List.foldl_cons, ← initOuter, ih, initInner_length]

theorem initInner_get?_miss (wd : Nat) (inp : List M) (x j : Nat) :
    ∀ (ys : List Nat) (acc : List (Slot M)), (∀ y ∈ ys, j ≠ x + y * wd) →
      (initInner wd inp x ys acc).get? j = acc.get? j := by
  intro ys
  induction ys with
  | nil => intro acc _; rfl
  | cons y ys ih =>
    intro acc hmiss
    rw [initInner, List.foldl_cons, ← initInner, ih _ (fun y' hy' => hmiss y' (by simp [hy']))]
    rw [List.get?_eq_getElem?, List.get?_eq_getElem?,
      List.getElem?_set_ne (fun hEq => hmiss y (by simp) hEq.symm)]

theorem initInner_get?_hit (wd : Nat) (inp : List M) (x : Nat) (hw : 0 < wd) :
    ∀ (ys : List Nat) (acc : List (Slot M)) (y0 : Nat), y0 ∈ ys →
      x + y0 * wd < acc.length →
      (initInner wd inp x ys acc).get? (x + y0 * wd) = some ⟨x, y0, inp⟩ := by
  intro ys
  induction ys with
  | nil => intro acc y0 h; simp at h
  | cons y ys ih =>
    intro acc y0 hmem hlt
    rw [initInner, List.foldl_cons, ← initInner]
    by_cases hys : y0 ∈ ys
    · exact ih _ y0 hys (by rw [List.length_set]; exact hlt)
    · have hy0 : y0 = y := by
        rcases List.mem_cons.mp hmem with h | h
        · exact h
        · exact absurd h hys
      subst hy0
      rw [initInner_get?_miss]
      · rw [List.get?_eq_getElem?, List.getElem?_set_self hlt]
      · intro y' hy' hEq
        have : y0 = y' := Nat.eq_of_mul_eq_mul_right hw (by omega)
        exact hys (this ▸ hy')

theorem initOuter_get?_miss (wd ht : Nat) (inp : List M) (j : Nat) :
    ∀ (xs : List Nat) (acc : List (Slot M)),
      (∀ x ∈ xs, ∀ y ∈ List.range ht, j ≠ x + y * wd) →
      (initOuter wd ht inp xs acc).get? j = acc.get? j := by
  intro xs
  induction xs with
  | nil => intro acc _; rfl
  | cons x xs ih =>
    intro acc hmiss
    rw [initOuter, List.foldl_cons, ← initOuter,
      ih _ (fun x' hx' => hmiss x' (by simp [hx'])),
      initInner_get?_miss _ _ _ _ _ _ (fun y hy => hmiss x (by simp) y hy)]

theorem initOuter_get?_hit (wd ht : Nat) (inp : List M) (hw : 0 < wd) :
    ∀ (xs : List Nat) (acc : List (Slot M)) (x0 y0 : Nat),
      (∀ x ∈ xs, x < wd) → x0 ∈ xs → y0 < ht → x0 + y0 * wd < acc.length →
      (initOuter wd ht inp xs acc).get? (x0 + y0 * wd) = some ⟨x0, y0, inp⟩ := by
  intro xs
  induction xs with
  | nil => intro acc x0 y0 _ h; simp at h
  | cons x xs ih =>
    intro acc x0 y0 hbound hmem hy0 hlt
    rw [initOuter, List.foldl_cons, ← initOuter]
    by_cases hxs : x0 ∈ xs
    · exact ih _ x0 y0 (fun x' hx' => hbound x' (by simp [hx'])) hxs hy0
        (by rw [initInner_length]; exact hlt)
    · have hx0 : x0 = x := by
        rcases List.mem_cons.mp hmem with h | h
        · exact h
        · exact absurd h hxs
      subst hx0
      rw [initOuter_get?_miss]
      · exact initInner_get?_hit wd inp x0 hw _ _ y0 (List.mem_range.mpr hy0) hlt
      · intro x' hx' y' hy' hEq
        have hx'w : x' < wd := hbound x' (by simp [hx'])
        have : x0 = x' ∧ y0 = y' :=
          coords_inj (hbound x0 (by simp)) hx'w hEq
        exact hxs (this.1 ▸ hx')

@[simp] theorem Wave.width_initializeSlots (w : Wave M) : w.initializeSlots.width = w.width := rfl

@[simp] theorem Wave.height_initializeSlots (w : Wave M) : w.initializeSlots.height = w.height := rfl

@[simp] theorem Wave.input_initializeSlots (w : Wave M) : w.initializeSlots.input = w.input := rfl

@[simp] theorem Wave.history_initializeSlots (w : Wave M) : w.initializeSlots.history = w.history := rfl

theorem Wave.initialize_length (w : Wave M) :
    w.initializeSlots.possibilitySpace.length = w.width * w.height := by
  show (initOuter w.width w.height w.input (List.range w.width)
    (List.replicate (w.width * w.height) ⟨0, 0, []⟩)).length = w.width * w.height
  rw [initOuter_length, List.length_replicate]

theorem Wave.initialize_getIdx (w : Wave M) {k : Nat} (hk : k < w.width * w.height) :
    w.initializeSlots.getIdx k = ⟨k % w.width, k / w.width, w.input⟩ := by
  have hw : 0 < w.width := by
    rcases Nat.eq_zero_or_pos w.width with h | h
    · rw [h] at hk; simp at hk
    · exact h
  have hx : k % w.width < w.width := Nat.mod_lt _ hw
  have hy : k / w.width < w.height := Nat.div_lt_of_lt_mul hk
  have hcode : k % w.width + k / w.width * w.width = k := by
    have h2 := Nat.mod_add_div k w.width
    rw [Nat.mul_comm w.width (k / w.width)] at h2
    exact h2
  have hhit := initOuter_get?_hit w.width w.height w.input hw (List.range w.width)
    (List.replicate (w.width * w.height) (⟨0, 0, []⟩ : Slot M)) (k % w.width) (k / w.width)
    (fun x hx' => List.mem_range.mp hx') (List.mem_range.mpr hx) hy
    (by rw [List.length_replicate, hcode]; exact hk)
  rw [hcode] at hhit
  show (initOuter w.width w.height w.input (List.range w.width)
    (List.replicate (w.width * w.height) ⟨0, 0, []⟩)).getD k ⟨0, 0, []⟩
    = (⟨k % w.width, k / w.width, w.input⟩ : Slot M)
  rw [List.getD_eq_getElem?_getD, ← List.get?_eq_getElem?, hhit]
  rfl

/-! ### Preservation helpers -/

theorem getLastD_mem : ∀ (l : List α) (d : α), l ≠ [] → l.getLastD d ∈ l
  | [a], _, _ => by simp [List.getLastD]
  | _ :: b :: t, _, _ => by
    have ih := getLastD_mem (b :: t) b (by simp)
    simp only [List.getLastD] at ih ⊢
    exact List.mem_cons_of_mem _ ih

theorem nodup_lt_length_le {l : List Nat} {n : Nat} (hnd : l.Nodup)
    (hlt : ∀ i ∈ l, i < n) : l.length ≤ n := by
  have h1 : l.toFinset.card = l.length := List.toFinset_card_of_nodup hnd
  have h2 : l.toFinset ⊆ Finset.range n := by
    intro i hi
    rw [List.mem_toFinset] at hi
    exact Finset.mem_range.mpr (hlt i hi)
  have h3 := Finset.card_le_card h2
  rw [h1, Finset.card_range] at h3
  exact h3

theorem Wave.WF_setSup {w : Wave M} (hWF : w.WF) (ni : Nat) (sup : List M) :
    (w.setSup ni sup).WF := by
  refine ⟨by simp [hWF.1], hWF.2.1, by simpa using hWF.2.2.1, ?_⟩
  intro k hk
  simp only [Wave.length_setSup] at hk
  by_cases hik : ni = k
  · subst hik
    rw [Wave.getIdx_setSup_self _ _ hk]
    simpa using hWF.2.2.2 ni hk
  · rw [Wave.getIdx_setSup_ne _ _ hik]
    simpa using hWF.2.2.2 k hk

theorem Wave.WF_setHistory {w : Wave M} (hWF : w.WF) {h : List Nat} (hnd : h.Nodup)
    (hb : ∀ i ∈ h, i < w.possibilitySpace.length) :
    ({ w with history := h } : Wave M).WF :=
  ⟨hWF.1, hnd, hb, hWF.2.2.2⟩

/-! ### One-direction step equations for the propagation loop -/

theorem Wave.recurseDirs_nil (rec : Wave M → List Nat → RecRes M) (w : Wave M)
    (rng : List Nat) (pi : Nat) :
    Wave.recurseDirs rec w rng pi [] = .ok ⟨w, rng⟩ := rfl

theorem Wave.recurseDirs_cons_noNeighbor (rec : Wave M → List Nat → RecRes M)
    (w : Wave M) (rng : List Nat) (pi : Nat) (d : Direction) (ds : List Direction)
    (hnb : w.hasNeighbor (w.getIdx pi) d = false) :
    Wave.recurseDirs rec w rng pi (d :: ds) = Wave.recurseDirs rec w rng pi ds := by
  rw [Wave.recurseDirs]
  simp [hnb]

theorem Wave.recurseDirs_cons_visited (rec : Wave M → List Nat → RecRes M)
    (w : Wave M) (rng : List Nat) (pi : Nat) (d : Direction) (ds : List Direction)
    (hnb : w.hasNeighbor (w.getIdx pi) d = true)
    (hv : w.hasVisited (w.neighborIdx (w.getIdx pi) d) = true) :
    Wave.recurseDirs rec w rng pi (d :: ds) = Wave.recurseDirs rec w rng pi ds := by
  rw [Wave.recurseDirs]
  simp [hnb, hv]

theorem Wave.recurseDirs_cons_fixpoint (rec : Wave M → List Nat → RecRes M)
    (w : Wave M) (rng : List Nat) (pi : Nat) (d : Direction) (ds : List Direction)
    (hnb : w.hasNeighbor (w.getIdx pi) d = true)
    (hv : w.hasVisited (w.neighborIdx (w.getIdx pi) d) = false)
    (hlen : (w.getPossibleModules (w.getIdx pi) (w.getIdx (w.neighborIdx (w.getIdx pi) d)) d).length
      = (w.getIdx (w.neighborIdx (w.getIdx pi) d)).superposition.length) :
    Wave.recurseDirs rec w rng pi (d :: ds) = Wave.recurseDirs rec w rng pi ds := by
  rw [Wave.recurseDirs]
  simp [hnb, hv, hlen]

theorem Wave.recurseDirs_cons_contradiction (rec : Wave M → List Nat → RecRes M)
    (w : Wave M) (rng : List Nat) (pi : Nat) (d : Direction) (ds : List Direction)
    (hnb : w.hasNeighbor (w.getIdx pi) d = true)
    (hv : w.hasVisited (w.neighborIdx (w.getIdx pi) d) = false)
    (hlen : ¬ (w.getPossibleModules (w.getIdx pi) (w.getIdx (w.neighborIdx (w.getIdx pi) d)) d).length
      = (w.getIdx (w.neighborIdx (w.getIdx pi) d)).superposition.length)
    (hzero : (w.getPossibleModules (w.getIdx pi) (w.getIdx (w.neighborIdx (w.getIdx pi) d)) d).length = 0) :
    Wave.recurseDirs rec w rng pi (d :: ds)
      = .err ⟨w.setSup (w.neighborIdx (w.getIdx pi) d)
          (w.getPossibleModules (w.getIdx pi) (w.getIdx (w.neighborIdx (w.getIdx pi) d)) d), rng⟩ := by
  simp only [Wave.recurseDirs]
  rw [if_pos hnb, if_neg (by simp [hv]), if_neg hlen, if_pos hzero]

theorem Wave.recurseDirs_cons_recurse (rec : Wave M → List Nat → RecRes M)
    (w : Wave M) (rng : List Nat) (pi : Nat) (d : Direction) (ds : List Direction)
    (hnb : w.hasNeighbor (w.getIdx pi) d = true)
    (hv : w.hasVisited (w.neighborIdx (w.getIdx pi) d) = false)
    (hlen : ¬ (w.getPossibleModules (w.getIdx pi) (w.getIdx (w.neighborIdx (w.getIdx pi) d)) d).length
      = (w.getIdx (w.neighborIdx (w.getIdx pi) d)).superposition.length)
    (hzero : ¬ (w.getPossibleModules (w.getIdx pi) (w.getIdx (w.neighborIdx (w.getIdx pi) d)) d).length = 0) :
    Wave.recurseDirs rec w rng pi (d :: ds)
      = (match rec { w.setSup (w.neighborIdx (w.getIdx pi) d)
            (w.getPossibleModules (w.getIdx pi) (w.getIdx (w.neighborIdx (w.getIdx pi) d)) d) with
            history := w.history ++ [w.neighborIdx (w.getIdx pi) d] } rng with
          | .ok s4 => Wave.recurseDirs rec
              { s4.wave with history := s4.wave.history.dropLast } s4.rng pi ds
          | r => r) := by
  simp only [Wave.recurseDirs]
  rw [if_pos hnb, if_neg (by simp [hv]), if_neg hlen, if_neg hzero]
  rfl

/-! ### The propagation master invariant -/

/-- What one (sub)run of the engine guarantees about its result: a success
restores the history it started from, preserves well-formedness, only ever
shrinks superpositions, and never touches a slot that was already on the
history stack; an error does the same except that the history is not
restored, and its final state contains a slot with an empty superposition
(the offending neighbor). -/
def RecPost (w : Wave M) (res : RecRes M) : Prop :=
  (∀ s, res = .ok s → s.wave.history = w.history ∧ s.wave.WF ∧ w.Shrinks s.wave ∧
    ∀ i ∈ w.history, (s.wave.getIdx i).superposition = (w.getIdx i).superposition) ∧
  (∀ s, res = .err s → w.Shrinks s.wave ∧
    (∀ i ∈ w.history, (s.wave.getIdx i).superposition = (w.getIdx i).superposition) ∧
    ∃ j, j < s.wave.possibilitySpace.length ∧ (s.wave.getIdx j).superposition = [])

theorem RecPost.compose {w w' : Wave M} {res : RecRes M} (hsh : w.Shrinks w')
    (hkeep : ∀ i ∈ w.history, (w'.getIdx i).superposition = (w.getIdx i).superposition)
    (hhist : w'.history = w.history) (hpost : RecPost w' res) : RecPost w res := by
  constructor
  · intro s hs
    obtain ⟨h1, h2, h3, h4⟩ := hpost.1 s hs
    refine ⟨h1.trans hhist, h2, hsh.trans h3, fun i hi => ?_⟩
    rw [h4 i (by rw [hhist]; exact hi), hkeep i hi]
  · intro s hs
    obtain ⟨h1, h2, h3⟩ := hpost.2 s hs
    refine ⟨hsh.trans h1, fun i hi => ?_, h3⟩
    rw [h2 i (by rw [hhist]; exact hi), hkeep i hi]

theorem recurseDirs_master (rec : Wave M → List Nat → RecRes M) (f n0 : Nat)
    (hrec : ∀ (w' : Wave M) (rng' : List Nat), w'.WF → w'.history ≠ [] →
      w'.possibilitySpace.length = n0 →
      RecPost w' (rec w' rng') ∧
        (n0 + 1 ≤ f + w'.history.length → rec w' rng' ≠ .giveup)) :
    ∀ (ds : List Direction) (w : Wave M) (rng : List Nat) (pi : Nat),
      w.WF → pi ∈ w.history → w.possibilitySpace.length = n0 →
      RecPost w (Wave.recurseDirs rec w rng pi ds) ∧
        (n0 ≤ f + w.history.length → Wave.recurseDirs rec w rng pi ds ≠ .giveup) := by
  intro ds
  induction ds with
  | nil =>
    intro w rng pi hWF hpi hlen
    rw [Wave.recurseDirs_nil]
    refine ⟨⟨fun s hs => ?_, fun s hs => RecRes.noConfusion hs⟩,
      fun _ h => RecRes.noConfusion h⟩
    injection hs with hs'
    subst hs'
    exact ⟨rfl, hWF, Wave.Shrinks.refl w, fun i _ => rfl⟩
  | cons d ds ih =>
    intro w rng pi hWF hpi hlen
    by_cases hnb : w.hasNeighbor (w.getIdx pi) d = true
    case neg =>
      rw [Wave.recurseDirs_cons_noNeighbor rec w rng pi d ds (by simpa using hnb)]
      exact ih w rng pi hWF hpi hlen
    case pos =>
    by_cases hvb : w.hasVisited (w.neighborIdx (w.getIdx pi) d) = true
    case pos =>
      rw [Wave.recurseDirs_cons_visited rec w rng pi d ds hnb hvb]
      exact ih w rng pi hWF hpi hlen
    case neg =>
    have hv : w.hasVisited (w.neighborIdx (w.getIdx pi) d) = false := by simpa using hvb
    have hpilt : pi < w.possibilitySpace.length := hWF.2.2.1 pi hpi
    have hnilt : w.neighborIdx (w.getIdx pi) d < w.possibilitySpace.length :=
      (Wave.neighborIdx_spec hWF hpilt hnb).1
    have hninot : w.neighborIdx (w.getIdx pi) d ∉ w.history :=
      (Wave.hasVisited_eq_false w _).mp hv
    have hsub : (w.getPossibleModules (w.getIdx pi)
        (w.getIdx (w.neighborIdx (w.getIdx pi) d)) d).Sublist
        (w.getIdx (w.neighborIdx (w.getIdx pi) d)).superposition :=
      w.getPossibleModules_sublist _ _ _
    by_cases hfix : (w.getPossibleModules (w.getIdx pi)
        (w.getIdx (w.neighborIdx (w.getIdx pi) d)) d).length
        = (w.getIdx (w.neighborIdx (w.getIdx pi) d)).superposition.length
    case pos =>
      rw [Wave.recurseDirs_cons_fixpoint rec w rng pi d ds hnb hv hfix]
      exact ih w rng pi hWF hpi hlen
    case neg =>
    by_cases hzero : (w.getPossibleModules (w.getIdx pi)
        (w.getIdx (w.neighborIdx (w.getIdx pi) d)) d).length = 0
    case pos =>
      rw [Wave.recurseDirs_cons_contradiction rec w rng pi d ds hnb hv hfix hzero]
      refine ⟨⟨fun s hs => RecRes.noConfusion hs, fun s hs => ?_⟩,
        fun _ h => RecRes.noConfusion h⟩
      injection hs with hs'
      subst hs'
      refine ⟨Wave.shrinks_setSup w hsub, fun i hi => ?_, ?_⟩
      · show ((w.setSup (w.neighborIdx (w.getIdx pi) d)
          (w.getPossibleModules (w.getIdx pi) (w.getIdx (w.neighborIdx (w.getIdx pi) d)) d)).getIdx
            i).superposition = (w.getIdx i).superposition
        rw [Wave.getIdx_setSup_ne _ _ (fun hEq => hninot (by rw [hEq]; exact hi))]
      · refine ⟨w.neighborIdx (w.getIdx pi) d, by simpa using hnilt, ?_⟩
        rw [Wave.getIdx_setSup_self _ _ hnilt]
        exact List.length_eq_zero.mp hzero
    case neg =>
    rw [Wave.recurseDirs_cons_recurse rec w rng pi d ds hnb hv hfix hzero]
    have hw3WF : ({ w.setSup (w.neighborIdx (w.getIdx pi) d)
        (w.getPossibleModules (w.getIdx pi) (w.getIdx (w.neighborIdx (w.getIdx pi) d)) d) with
        history := w.history ++ [w.neighborIdx (w.getIdx pi) d] } : Wave M).WF := by
      refine Wave.WF_setHistory (Wave.WF_setSup hWF _ _) ?_ ?_
      · rw [List.nodup_append]
        exact ⟨hWF.2.1, List.nodup_singleton _,
          fun a ha hb => by simp at hb; exact hninot (hb ▸ ha)⟩
      · intro i hi
        rcases List.mem_append.mp hi with h | h
        · simpa using hWF.2.2.1 i h
        · simp at h
          subst h
          simpa using hnilt
    have hw3hist : ({ w.setSup (w.neighborIdx (w.getIdx pi) d)
        (w.getPossibleModules (w.getIdx pi) (w.getIdx (w.neighborIdx (w.getIdx pi) d)) d) with
        history := w.history ++ [w.neighborIdx (w.getIdx pi) d] } : Wave M).history
        = w.history ++ [w.neighborIdx (w.getIdx pi) d] := rfl
    have hw3len : ({ w.setSup (w.neighborIdx (w.getIdx pi) d)
        (w.getPossibleModules (w.getIdx pi) (w.getIdx (w.neighborIdx (w.getIdx pi) d)) d) with
        history := w.history ++ [w.neighborIdx (w.getIdx pi) d] } : Wave M).possibilitySpace.length
        = n0 := by
      simpa using hlen
    have hshrink3 : w.Shrinks { w.setSup (w.neighborIdx (w.getIdx pi) d)
        (w.getPossibleModules (w.getIdx pi) (w.getIdx (w.neighborIdx (w.getIdx pi) d)) d) with
        history := w.history ++ [w.neighborIdx (w.getIdx pi) d] } :=
      (Wave.shrinks_setSup w hsub).trans (Wave.shrinks_setHistory _ _)
    have hkeep3 : ∀ i ∈ w.history,
        (({ w.setSup (w.neighborIdx (w.getIdx pi) d)
          (w.getPossibleModules (w.getIdx pi) (w.getIdx (w.neighborIdx (w.getIdx pi) d)) d) with
          history := w.history ++ [w.neighborIdx (w.getIdx pi) d] } : Wave M).getIdx i).superposition
          = (w.getIdx i).superposition := by
      intro i hi
      show ((w.setSup (w.neighborIdx (w.getIdx pi) d)
        (w.getPossibleModules (w.getIdx pi) (w.getIdx (w.neighborIdx (w.getIdx pi) d)) d)).getIdx
          i).superposition = (w.getIdx i).superposition
      rw [Wave.getIdx_setSup_ne _ _ (fun hEq => hninot (by rw [hEq]; exact hi))]
    obtain ⟨hpost3, hgu3⟩ := hrec _ rng hw3WF (by rw [hw3hist]; simp) hw3len
    cases hR : rec { w.setSup (w.neighborIdx (w.getIdx pi) d)
        (w.getPossibleModules (w.getIdx pi) (w.getIdx (w.neighborIdx (w.getIdx pi) d)) d) with
        history := w.history ++ [w.neighborIdx (w.getIdx pi) d] } rng with
    | ok s4 =>
      obtain ⟨hhist4, hWF4, hsh4, hkeep4⟩ := hpost3.1 s4 hR
      rw [hw3hist] at hhist4
      have hlen4 : s4.wave.possibilitySpace.length = w.possibilitySpace.length := by
        rw [hsh4.2.2.2.1]
        simp
      have hw5hist : ({ s4.wave with history := s4.wave.history.dropLast } : Wave M).history
          = w.history := by
        show s4.wave.history.dropLast = w.history
        rw [hhist4, List.dropLast_concat]
      have hw5WF : ({ s4.wave with history := s4.wave.history.dropLast } : Wave M).WF := by
        refine Wave.WF_setHistory hWF4 ?_ ?_
        · rw [hhist4, List.dropLast_concat]
          exact hWF.2.1
        · intro i hi
          rw [hhist4, List.dropLast_concat] at hi
          rw [hlen4]
          exact hWF.2.2.1 i hi
      have hshrink5 : w.Shrinks { s4.wave with history := s4.wave.history.dropLast } :=
        (hshrink3.trans hsh4).trans (Wave.shrinks_setHistory _ _)
      have hkeep5 : ∀ i ∈ w.history,
          (({ s4.wave with history := s4.wave.history.dropLast } : Wave M).getIdx i).superposition
            = (w.getIdx i).superposition := by
        intro i hi
        show (s4.wave.getIdx i).superposition = _
        rw [hkeep4 i (by rw [hw3hist]; exact List.mem_append_left _ hi), hkeep3 i hi]
      obtain ⟨hpost5, hgu5⟩ := ih { s4.wave with history := s4.wave.history.dropLast } s4.rng pi
        (by exact hw5WF) (by rw [hw5hist]; exact hpi) (by rw [hlen4] at *; simpa using hlen)
      refine ⟨RecPost.compose hshrink5 hkeep5 hw5hist hpost5, fun hb => ?_⟩
      exact hgu5 (by rw [hw5hist]; exact hb)
    | err s4 =>
      obtain ⟨hsh4, hkeep4, hex4⟩ := hpost3.2 s4 hR
      refine ⟨⟨fun s hs => RecRes.noConfusion hs, fun s hs => ?_⟩,
        fun _ h => RecRes.noConfusion h⟩
      injection hs with hs'
      subst hs'
      refine ⟨hshrink3.trans hsh4, fun i hi => ?_, hex4⟩
      rw [hkeep4 i (by rw [hw3hist]; exact List.mem_append_left _ hi), hkeep3 i hi]
    | giveup =>
      refine ⟨⟨fun s hs => RecRes.noConfusion hs, fun s hs => RecRes.noConfusion hs⟩,
        fun hb => ?_⟩
      exfalso
      refine hgu3 ?_ hR
      rw [hw3hist, List.length_append, List.length_singleton]
      omega

/-! ### Step equations and master invariant for `Recurse` -/

theorem Wave.recurse_zero (w : Wave M) (rng : List Nat) :
    Wave.recurse 0 w rng = .giveup := rfl

theorem Wave.recurse_succ_collapsed (f : Nat) (w : Wave M) (rng : List Nat)
    (h : w.isCollapsed = true) : Wave.recurse (f + 1) w rng = .ok ⟨w, rng⟩ := by
  simp only [Wave.recurse]
  rw [if_pos h]

theorem Wave.recurse_succ_propagate (f : Nat) (w : Wave M) (rng : List Nat)
    (hc : ¬ w.isCollapsed = true) (a : Nat) (t : List Nat) (hH : w.history = a :: t) :
    Wave.recurse (f + 1) w rng
      = Wave.recurseDirs (fun w2 r2 => Wave.recurse f w2 r2) w rng
          (w.history.getLastD 0) Directions := by
  simp only [Wave.recurse]
  rw [if_neg hc, hH]

theorem Wave.recurse_succ_start (f : Nat) (w : Wave M) (rng : List Nat)
    (hc : ¬ w.isCollapsed = true) (hH : w.history = []) :
    Wave.recurse (f + 1) w rng
      = (match w.collapseRandomSlot rng with
          | none => .giveup
          | some (i, w1, rng1) =>
            Wave.recurseDirs (fun w2 r2 => Wave.recurse f w2 r2)
              { w1 with history := w1.history ++ [i] } rng1
              (({ w1 with history := w1.history ++ [i] } : Wave M).history.getLastD 0)
              Directions) := by
  simp only [Wave.recurse]
  rw [if_neg hc, hH]

/-- Master invariant of the recursive propagation: called on a well-formed
state in mid-propagation (non-empty history), `Recurse` satisfies `RecPost`,
and it cannot exhaust the modelled fuel as long as the fuel exceeds the
number of not-yet-visited slots (the recursion depth is bounded because each
level pushes a distinct, previously unvisited slot). -/
theorem recurse_master :
    ∀ (fuel : Nat) (w : Wave M) (rng : List Nat), w.WF → w.history ≠ [] →
      RecPost w (Wave.recurse fuel w rng) ∧
        (w.possibilitySpace.length + 1 ≤ fuel + w.history.length →
          Wave.recurse fuel w rng ≠ .giveup) := by
  intro fuel
  induction fuel with
  | zero =>
    intro w rng hWF hne
    rw [Wave.recurse_zero]
    refine ⟨⟨fun s hs => RecRes.noConfusion hs, fun s hs => RecRes.noConfusion hs⟩,
      fun hb => ?_⟩
    exfalso
    have := nodup_lt_length_le hWF.2.1 hWF.2.2.1
    omega
  | succ f ihf =>
    intro w rng hWF hne
    by_cases hc : w.isCollapsed = true
    case pos =>
      rw [Wave.recurse_succ_collapsed f w rng hc]
      refine ⟨⟨fun s hs => ?_, fun s hs => RecRes.noConfusion hs⟩,
        fun _ h => RecRes.noConfusion h⟩
      injection hs with hs'
      subst hs'
      exact ⟨rfl, hWF, Wave.Shrinks.refl w, fun i _ => rfl⟩
    case neg =>
      rcases hH : w.history with _ | ⟨a, t⟩
      · exact absurd hH hne
      · rw [Wave.recurse_succ_propagate f w rng hc a t hH]
        have hpi : w.history.getLastD 0 ∈ w.history := getLastD_mem w.history 0 hne
        have hrec : ∀ (w' : Wave M) (rng' : List Nat), w'.WF → w'.history ≠ [] →
            w'.possibilitySpace.length = w.possibilitySpace.length →
            RecPost w' (Wave.recurse f w' rng') ∧
              (w.possibilitySpace.length + 1 ≤ f + w'.history.length →
                Wave.recurse f w' rng' ≠ .giveup) := by
          intro w' rng' hWF' hne' hlen'
          have h := ihf w' rng' hWF' hne'
          rw [hlen'] at h
          exact h
        obtain ⟨hpost, hgu⟩ := recurseDirs_master (fun w2 r2 => Wave.recurse f w2 r2) f
          w.possibilitySpace.length hrec Directions w rng (w.history.getLastD 0) hWF hpi rfl
        exact ⟨hpost, fun hb => hgu (by simp only [hH, List.length_cons] at hb ⊢; omega)⟩

/-- Behavior of a full `Recurse` call that starts with an empty history on a
not-yet-collapsed grid: the randomly picked slot `i` is collapsed to a
single member of its previous superposition and pushed as the only history
entry; afterwards the whole run satisfies the usual guarantees (balanced
history on success, empty offending slot on error, fuel bounded by the slot
count). -/
theorem recurse_start_spec (f : Nat) (w : Wave M) (rng : List Nat) (hWF : w.WF)
    (hH : w.history = []) (hc : w.isCollapsed = false) (i : Nat) (w1 : Wave M)
    (rng1 : List Nat) (hcrs : w.collapseRandomSlot rng = some (i, w1, rng1)) :
    (∀ s, Wave.recurse (f + 1) w rng = .ok s →
      ∃ m, s.wave.history = [i] ∧ i < w.possibilitySpace.length ∧
        (s.wave.getIdx i).superposition = [m] ∧ m ∈ (w.getIdx i).superposition ∧
        1 < (w.getIdx i).superposition.length ∧ w.Shrinks s.wave ∧ s.wave.WF) ∧
    (∀ s, Wave.recurse (f + 1) w rng = .err s → w.Shrinks s.wave ∧
      ∃ j, j < s.wave.possibilitySpace.length ∧ (s.wave.getIdx j).superposition = []) ∧
    (w.possibilitySpace.length ≤ f + 1 → Wave.recurse (f + 1) w rng ≠ .giveup) := by
  obtain ⟨hilt, hbig, m, hm, hw1⟩ := w.collapseRandomSlot_spec rng i w1 rng1 hcrs
  have hw1' : w1 = w.setSup i [m] := hw1
  have hw1hist : w1.history = [] := by rw [hw1']; simpa using hH
  have heq : Wave.recurse (f + 1) w rng
      = Wave.recurseDirs (fun w2 r2 => Wave.recurse f w2 r2)
          { w1 with history := [i] } rng1 i Directions := by
    rw [Wave.recurse_succ_start f w rng (by simp [hc]) hH, hcrs]
    simp [hw1hist, List.getLastD]
  have hWFA : ({ w1 with history := [i] } : Wave M).WF := by
    rw [hw1']
    exact Wave.WF_setHistory (Wave.WF_setSup hWF i [m]) (List.nodup_singleton i)
      (by intro j hj; simp at hj; subst hj; simpa using hilt)
  have hlenA : ({ w1 with history := [i] } : Wave M).possibilitySpace.length
      = w.possibilitySpace.length := by rw [hw1']; simp
  have hrec : ∀ (w' : Wave M) (rng' : List Nat), w'.WF → w'.history ≠ [] →
      w'.possibilitySpace.length = w.possibilitySpace.length →
      RecPost w' (Wave.recurse f w' rng') ∧
        (w.possibilitySpace.length + 1 ≤ f + w'.history.length →
          Wave.recurse f w' rng' ≠ .giveup) := by
    intro w' rng' hWF' hne' hlen'
    have h := recurse_master f w' rng' hWF' hne'
    rw [hlen'] at h
    exact h
  obtain ⟨hpost, hgu⟩ := recurseDirs_master (fun w2 r2 => Wave.recurse f w2 r2) f
    w.possibilitySpace.length hrec Directions { w1 with history := [i] } rng1 i
    hWFA (by simp) hlenA
  have hshA : w.Shrinks { w1 with history := [i] } := by
    rw [hw1']
    exact (Wave.shrinks_setSup w (List.singleton_sublist.mpr hm)).trans
      (Wave.shrinks_setHistory _ _)
  have hgetA : (({ w1 with history := [i] } : Wave M).getIdx i).superposition = [m] := by
    rw [hw1']
    show ((w.setSup i [m]).getIdx i).superposition = [m]
    rw [Wave.getIdx_setSup_self _ _ hilt]
  refine ⟨?_, ?_, ?_⟩
  · intro s hs
    rw [heq] at hs
    obtain ⟨h1, h2, h3, h4⟩ := hpost.1 s hs
    refine ⟨m, by rw [h1], hilt, ?_, hm, hbig, hshA.trans h3, h2⟩
    rw [h4 i (by simp)]
    exact hgetA
  · intro s hs
    rw [heq] at hs
    obtain ⟨h1, _, h3⟩ := hpost.2 s hs
    exact ⟨hshA.trans h1, h3⟩
  · intro hfuel
    rw [heq]
    apply hgu
    show w.possibilitySpace.length ≤ f + ({ w1 with history := [i] } : Wave M).history.length
    simp only [List.length_singleton]
    omega

/-! ### Concrete fixtures used by the witness theorems -/

/-- Compatibility predicate accepting everything. -/
def fnAll : Nat → Slot Nat → Slot Nat → Direction → Bool := fun _ _ _ _ => true

/-- Compatibility predicate rejecting everything. -/
def fnNone : Nat → Slot Nat → Slot Nat → Direction → Bool := fun _ _ _ _ => false

/-- A fresh 2×1 grid over a two-module catalog with a predicate that allows
nothing: the first propagation step runs into a contradiction. -/
def waveTwoByOne : Wave Nat :=
  ⟨2, 1, [10, 20], [⟨0, 0, [10, 20]⟩, ⟨1, 0, [10, 20]⟩], [], fnNone⟩

/-- The state `waveTwoByOne` reaches when `Recurse` (random stream `[0, 0]`)
returns the contradiction: slot 0 collapsed to `[10]`, slot 1 emptied,
history holding the collapsed slot. -/
def waveTwoByOneErr : Wave Nat :=
  ⟨2, 1, [10, 20], [⟨0, 0, [10]⟩, ⟨1, 0, []⟩], [0], fnNone⟩

/-- A fresh 1×1 grid over a two-module catalog (spec scenario A). -/
def waveOneByOne : Wave Nat := ⟨1, 1, [10, 20], [⟨0, 0, [10, 20]⟩], [], fnAll⟩

/-- The successful result of one attempt on `waveOneByOne` with random
stream `[0, 1]`: the only slot collapsed to the second module. -/
def waveOneByOneOk : Wave Nat := ⟨1, 1, [10, 20], [⟨0, 0, [20]⟩], [0], fnAll⟩

/-- A fresh 2×2 grid over a two-module catalog, everything compatible. -/
def waveTwoByTwo : Wave Nat :=
  ⟨2, 2, [10, 20], [⟨0, 0, [10, 20]⟩, ⟨1, 0, [10, 20]⟩, ⟨0, 1, [10, 20]⟩, ⟨1, 1, [10, 20]⟩],
    [], fnAll⟩

/-- A fully collapsed 3×3 grid over a one-module catalog. -/
def waveThreeByThree : Wave Nat :=
  ⟨3, 3, [5],
    [⟨0, 0, [5]⟩, ⟨1, 0, [5]⟩, ⟨2, 0, [5]⟩,
     ⟨0, 1, [5]⟩, ⟨1, 1, [5]⟩, ⟨2, 1, [5]⟩,
     ⟨0, 2, [5]⟩, ⟨1, 2, [5]⟩, ⟨2, 2, [5]⟩], [], fnAll⟩

/-- A wave built from an empty tile catalog. -/
def waveEmptyCatalog : Wave Nat := ⟨1, 1, [], [⟨0, 0, []⟩], [], fnAll⟩

/-! ### The claims -/

/-- Claim C2: `GetPossibleModules(a, b, d)` returns exactly the modules of
`b`'s current superposition accepted by `IsPossibleFn(m, a, b, d)`, in the
same relative order: it is the filter of `b`'s superposition by the
predicate.  (In this functional embedding the call returns a fresh list and
leaves both slots and the wave untouched by construction, which models the
Go function's lack of mutation.) -/
theorem claim_C2 (w : Wave M) (a b : Slot M) (d : Direction) :
    w.getPossibleModules a b d
      = b.superposition.filter (fun m => w.isPossibleFn m a b d) :=
  w.getPossibleModules_eq_filter a b d

/-- Witness for C2 at a concrete wave: the rejecting predicate filters a
two-module superposition down to the empty list. -/
theorem claim_C2_witness :
    waveTwoByOne.getPossibleModules (waveTwoByOne.getIdx 0) (waveTwoByOne.getIdx 1) .right
      = (waveTwoByOne.getIdx 1).superposition.filter
          (fun m => waveTwoByOne.isPossibleFn m (waveTwoByOne.getIdx 0) (waveTwoByOne.getIdx 1) .right) :=
  claim_C2 waveTwoByOne (waveTwoByOne.getIdx 0) (waveTwoByOne.getIdx 1) .right

/-- Claim C3: the size-equality skip check is sound — if the filtered list
returned by `GetPossibleModules` has the same length as `b`'s current
superposition, it IS `b`'s superposition (the filter is always a sublist of
its input, and a sublist of equal length is the whole list). -/
theorem claim_C3 (w : Wave M) (a b : Slot M) (d : Direction)
    (h : (w.getPossibleModules a b d).length = b.superposition.length) :
    w.getPossibleModules a b d = b.superposition :=
  (w.getPossibleModules_sublist a b d).eq_of_length h

/-- Witness for C3: with the all-accepting predicate the filtered list has
the length of the superposition, and the theorem yields equality. -/
theorem claim_C3_witness :
    waveOneByOne.getPossibleModules (waveOneByOne.getIdx 0) (waveOneByOne.getIdx 0) .up
      = (waveOneByOne.getIdx 0).superposition :=
  claim_C3 waveOneByOne (waveOneByOne.getIdx 0) (waveOneByOne.getIdx 0) .up (by decide)

/-- Claim C7: `IsCollapsed` is true iff every slot's superposition has size
at most 1 (empty, contradicted slots included), and on a fully collapsed
grid one `Recurse` attempt succeeds immediately, returning the wave
unchanged (no slot mutated, no history pushed). -/
theorem claim_C7 (w : Wave M) :
    (w.isCollapsed = true ↔ ∀ k, k < w.possibilitySpace.length →
      (w.getIdx k).superposition.length ≤ 1) ∧
    (w.isCollapsed = true → ∀ (fuel : Nat) (rng : List Nat),
      Wave.recurse (fuel + 1) w rng = .ok ⟨w, rng⟩) :=
  ⟨w.isCollapsed_iff, fun h fuel rng => Wave.recurse_succ_collapsed fuel w rng h⟩

/-- Witness for C7: on the fully collapsed 3×3 grid, one attempt is a no-op
success. -/
theorem claim_C7_witness :
    Wave.recurse 3 waveThreeByThree [] = .ok ⟨waveThreeByThree, []⟩ :=
  (claim_C7 waveThreeByThree).2 (by decide) 2 []

/-- Claim C5: `Collapse(attempts)` is the `attempts`-fold iteration of the
single-attempt operation: zero attempts succeed with the state unchanged;
if `Recurse` errors, `Collapse` returns that same error (state included)
immediately, running none of the remaining attempts; if `Recurse` succeeds,
`Collapse` clears `History` to the empty list and proceeds with the
remaining attempts from the attempt's final grid. -/
theorem claim_C5 (w : Wave M) (fuel : Nat) (rng : List Nat) :
    Wave.collapse w 0 fuel rng = .ok ⟨w, rng⟩ ∧
    (∀ (a : Nat) (s : RState M), Wave.recurse fuel w rng = .err s →
      Wave.collapse w (a + 1) fuel rng = .err s) ∧
    (∀ (a : Nat) (s : RState M), Wave.recurse fuel w rng = .ok s →
      Wave.collapse w (a + 1) fuel rng
        = Wave.collapse { s.wave with history := [] } a fuel s.rng) := by
  refine ⟨rfl, fun a s hs => ?_, fun a s hs => ?_⟩
  · simp only [Wave.collapse]
    rw [hs]
  · simp only [Wave.collapse]
    rw [hs]

/-- Witness for C5: the contradiction of the 2×1 scenario surfaces through
`Collapse` unchanged, aborting the remaining attempts. -/
theorem claim_C5_witness :
    Wave.collapse waveTwoByOne 1 5 [0, 0] = .err ⟨waveTwoByOneErr, []⟩ :=
  (claim_C5 waveTwoByOne 5 [0, 0]).2.1 0 ⟨waveTwoByOneErr, []⟩ rfl

/-- Claim C10: `ExportImage` reads `Input[0]` unconditionally, so on an
empty catalog it panics (modelled by `none`); on a non-empty catalog the
access cannot fail and the export produces the `Width*u × Height*v` canvas
with its draw operations.  (The model is a pure observation of the wave:
`ExportImage` mutates nothing.) -/
theorem claim_C10 (w : Wave M) (dims : M → Nat × Nat) :
    (w.input = [] → w.exportImage dims = none) ∧
    (∀ m0 rest, w.input = m0 :: rest →
      ∃ ops, w.exportImage dims
        = some (w.width * (dims m0).1, w.height * (dims m0).2, ops)) := by
  constructor
  · intro h
    simp [Wave.exportImage, h]
  · intro m0 rest h
    refine ⟨w.possibilitySpace.foldl (fun ops s =>
      let ops1 := match s.superposition with
        | [m] => ops ++ [DrawOp.tile s.x s.y m]
        | _ => ops
      if s.superposition.length = 0 then ops1 ++ [DrawOp.redFill s.x s.y] else ops1) [], ?_⟩
    simp [Wave.exportImage, h]

/-- Witness for C10: exporting a wave with an empty catalog hits the
modelled panic. -/
theorem claim_C10_witness :
    waveEmptyCatalog.exportImage (fun _ => (4, 4)) = none :=
  (claim_C10 waveEmptyCatalog (fun _ => (4, 4))).1 rfl

/-- Claim C8: on a grid with width ≥ 2 and height ≥ 2, `HasNeighbor` holds
for exactly 2 directions at a corner slot, exactly 3 at a non-corner edge
slot and 4 at an interior slot; and whenever `HasNeighbor(s, d)` holds,
`GetNeighbor(s, d)` is the in-range slot whose coordinates are `s`'s
shifted one step in direction `d`. -/
theorem claim_C8 (w : Wave M) (hw : 2 ≤ w.width) (hh : 2 ≤ w.height)
    (hWF : w.WF) (k : Nat) (hk : k < w.possibilitySpace.length) :
    ((((w.getIdx k).x = 0 ∨ (w.getIdx k).x = w.width - 1) ∧
      ((w.getIdx k).y = 0 ∨ (w.getIdx k).y = w.height - 1)) →
      (Directions.filter (fun d => w.hasNeighbor (w.getIdx k) d)).length = 2) ∧
    ((((((w.getIdx k).x = 0 ∨ (w.getIdx k).x = w.width - 1) ∧
        ¬((w.getIdx k).y = 0 ∨ (w.getIdx k).y = w.height - 1))) ∨
      (¬((w.getIdx k).x = 0 ∨ (w.getIdx k).x = w.width - 1) ∧
        ((w.getIdx k).y = 0 ∨ (w.getIdx k).y = w.height - 1))) →
      (Directions.filter (fun d => w.hasNeighbor (w.getIdx k) d)).length = 3) ∧
    ((¬((w.getIdx k).x = 0 ∨ (w.getIdx k).x = w.width - 1) ∧
      ¬((w.getIdx k).y = 0 ∨ (w.getIdx k).y = w.height - 1)) →
      (Directions.filter (fun d => w.hasNeighbor (w.getIdx k) d)).length = 4) ∧
    (∀ d, w.hasNeighbor (w.getIdx k) d = true →
      w.getNeighbor (w.getIdx k) d = w.getIdx (w.neighborIdx (w.getIdx k) d) ∧
      w.neighborIdx (w.getIdx k) d < w.possibilitySpace.length ∧
      (w.getNeighbor (w.getIdx k) d).x
        = (match d with
            | .up => (w.getIdx k).x
            | .down => (w.getIdx k).x
            | .left => (w.getIdx k).x - 1
            | .right => (w.getIdx k).x + 1) ∧
      (w.getNeighbor (w.getIdx k) d).y
        = (match d with
            | .up => (w.getIdx k).y - 1
            | .down => (w.getIdx k).y + 1
            | .left => (w.getIdx k).y
            | .right => (w.getIdx k).y)) := by
  obtain ⟨hx, hy, hcode⟩ := hWF.coords hk
  have hcnt : (Directions.filter (fun d => w.hasNeighbor (w.getIdx k) d)).length
      = (if 0 < (w.getIdx k).y then 1 else 0) + ((if (w.getIdx k).y < w.height - 1 then 1 else 0)
        + ((if 0 < (w.getIdx k).x then 1 else 0)
          + (if (w.getIdx k).x < w.width - 1 then 1 else 0))) := by
    by_cases h1 : 0 < (w.getIdx k).y <;> by_cases h2 : (w.getIdx k).y < w.height - 1 <;>
      by_cases h3 : 0 < (w.getIdx k).x <;> by_cases h4 : (w.getIdx k).x < w.width - 1 <;>
      simp [Directions, Wave.hasNeighbor, List.filter, h1, h2, h3, h4]
  refine ⟨?_, ?_, ?_, ?_⟩
  · rintro ⟨hx0 | hx0, hy0 | hy0⟩ <;> (rw [hcnt]; split_ifs <;> omega)
  · rintro (⟨hx0 | hx0, hy0⟩ | ⟨hx0, hy0 | hy0⟩) <;> (rw [hcnt]; split_ifs <;> omega)
  · rintro ⟨hx0, hy0⟩
    rw [hcnt]
    split_ifs <;> omega
  · intro d hnb
    have hni := Wave.neighborIdx_spec hWF hk hnb
    have hco := hWF.coords hni.1
    cases d with
    | up =>
      have heq := coords_inj hco.1 hx (hco.2.2.trans hni.2.symm)
      exact ⟨rfl, hni.1, heq.1, heq.2⟩
    | down =>
      have heq := coords_inj hco.1 hx (hco.2.2.trans hni.2.symm)
      exact ⟨rfl, hni.1, heq.1, heq.2⟩
    | left =>
      have hx2 : (w.getIdx k).x - 1 < w.width := by omega
      have heq := coords_inj hco.1 hx2 (hco.2.2.trans hni.2.symm)
      exact ⟨rfl, hni.1, heq.1, heq.2⟩
    | right =>
      simp only [Wave.hasNeighbor, decide_eq_true_eq] at hnb
      have hx2 : (w.getIdx k).x + 1 < w.width := by omega
      have heq := coords_inj hco.1 hx2 (hco.2.2.trans hni.2.symm)
      exact ⟨rfl, hni.1, heq.1, heq.2⟩

/-- Witness for C8: the center slot of the 3×3 grid has all four
neighbors. -/
theorem claim_C8_witness :
    (Directions.filter (fun d => waveThreeByThree.hasNeighbor (waveThreeByThree.getIdx 4) d)).length
      = 4 :=
  (claim_C8 waveThreeByThree (by decide) (by decide) (by decide) 4 (by decide)).2.2.1
    (by decide)

/-- Claim C1: `Recurse` returns `ErrNoSolution` exactly at contradictions.
(1) Whenever a well-formed run returns the error, the returned state
contains a slot with an empty superposition — the offending neighbor's
superposition was already replaced by the empty list, and it is still empty
when the error surfaces.  (2) The error is raised the instant a neighbor's
superposition filters to the empty list: when the neighbor exists, is
unvisited and its nonempty superposition filters to `[]`, the loop installs
`[]` into that neighbor and returns the error with no other mutation.
(3) While the error unwinds, nothing else is written: an error produced by
the recursive call is returned as-is, skipping the remaining directions.
(A neighbor whose superposition is already empty filters to an empty list
of its own length and is skipped by the fixed-point check, matching the
spec's "becomes empty": the error accompanies exactly the transition to an
empty superposition.) -/
theorem claim_C1 :
    (∀ (fuel : Nat) (w : Wave M) (rng : List Nat) (s : RState M), w.WF →
      Wave.recurse fuel w rng = .err s →
      ∃ j, j < s.wave.possibilitySpace.length ∧ (s.wave.getIdx j).superposition = []) ∧
    (∀ (rec : Wave M → List Nat → RecRes M) (w : Wave M) (rng : List Nat)
        (pi : Nat) (d : Direction) (ds : List Direction),
      w.hasNeighbor (w.getIdx pi) d = true →
      w.hasVisited (w.neighborIdx (w.getIdx pi) d) = false →
      w.getPossibleModules (w.getIdx pi) (w.getIdx (w.neighborIdx (w.getIdx pi) d)) d = [] →
      (w.getIdx (w.neighborIdx (w.getIdx pi) d)).superposition ≠ [] →
      Wave.recurseDirs rec w rng pi (d :: ds)
        = .err ⟨w.setSup (w.neighborIdx (w.getIdx pi) d) [], rng⟩) ∧
    (∀ (rec : Wave M → List Nat → RecRes M) (w : Wave M) (rng : List Nat)
        (pi : Nat) (d : Direction) (ds : List Direction) (s : RState M),
      w.hasNeighbor (w.getIdx pi) d = true →
      w.hasVisited (w.neighborIdx (w.getIdx pi) d) = false →
      ¬ (w.getPossibleModules (w.getIdx pi) (w.getIdx (w.neighborIdx (w.getIdx pi) d)) d).length
        = (w.getIdx (w.neighborIdx (w.getIdx pi) d)).superposition.length →
      ¬ (w.getPossibleModules (w.getIdx pi) (w.getIdx (w.neighborIdx (w.getIdx pi) d)) d).length
        = 0 →
      rec { w.setSup (w.neighborIdx (w.getIdx pi) d)
          (w.getPossibleModules (w.getIdx pi) (w.getIdx (w.neighborIdx (w.getIdx pi) d)) d) with
          history := w.history ++ [w.neighborIdx (w.getIdx pi) d] } rng = .err s →
      Wave.recurseDirs rec w rng pi (d :: ds) = .err s) := by
  refine ⟨?_, ?_, ?_⟩
  · intro fuel w rng s hWF herr
    cases fuel with
    | zero =>
      rw [Wave.recurse_zero] at herr
      exact RecRes.noConfusion herr
    | succ f =>
      by_cases hc : w.isCollapsed = true
      · rw [Wave.recurse_succ_collapsed f w rng hc] at herr
        exact RecRes.noConfusion herr
      · rcases hH : w.history with _ | ⟨a, t⟩
        · cases hcrs : w.collapseRandomSlot rng with
          | none =>
            rw [Wave.recurse_succ_start f w rng hc hH, hcrs] at herr
            exact RecRes.noConfusion herr
          | some x =>
            obtain ⟨i, w1, rng1⟩ := x
            exact ((recurse_start_spec f w rng hWF hH (by simpa using hc) i w1 rng1
              hcrs).2.1 s herr).2
        · exact ((recurse_master (f + 1) w rng hWF (by rw [hH]; simp)).1.2 s herr).2.2
  · intro rec w rng pi d ds hnb hv hfilter hne
    have hzero : (w.getPossibleModules (w.getIdx pi)
        (w.getIdx (w.neighborIdx (w.getIdx pi) d)) d).length = 0 := by
      rw [hfilter]
      rfl
    have hlen : ¬ (w.getPossibleModules (w.getIdx pi)
        (w.getIdx (w.neighborIdx (w.getIdx pi) d)) d).length
        = (w.getIdx (w.neighborIdx (w.getIdx pi) d)).superposition.length := by
      rw [hfilter]
      intro h0
      exact hne (List.length_eq_zero.mp h0.symm)
    rw [Wave.recurseDirs_cons_contradiction rec w rng pi d ds hnb hv hlen hzero, hfilter]
  · intro rec w rng pi d ds s hnb hv hlen hzero hrecerr
    rw [Wave.recurseDirs_cons_recurse rec w rng pi d ds hnb hv hlen hzero, hrecerr]

/-- Witness for C1 on the 2×1 contradiction scenario: the error state
contains an emptied slot. -/
theorem claim_C1_witness :
    ∃ j, j < waveTwoByOneErr.possibilitySpace.length ∧
      (waveTwoByOneErr.getIdx j).superposition = [] :=
  claim_C1.1 5 waveTwoByOne [0, 0] ⟨waveTwoByOneErr, []⟩ (by decide) rfl

/-- Claim C4: after `Initialize` every slot's superposition is the full
input catalog; every state reached by `Recurse` (success or error) only
shrinks superpositions — each slot's new superposition is a sublist
(subsequence) of its previous one, with coordinates and grid geometry
untouched; and shrinking implies the non-increasing size, the preservation
of duplicate-freedom, and that no module outside the previous superposition
(in particular outside the catalog) ever appears. -/
theorem claim_C4 :
    (∀ (w : Wave M) (k : Nat), k < w.width * w.height →
      (w.initializeSlots.getIdx k).superposition = w.input) ∧
    (∀ (fuel : Nat) (w : Wave M) (rng : List Nat) (s : RState M), w.WF →
      Wave.recurse fuel w rng = .ok s ∨ Wave.recurse fuel w rng = .err s →
      w.Shrinks s.wave) ∧
    (∀ w w' : Wave M, w.Shrinks w' → ∀ k,
      (w'.getIdx k).superposition.length ≤ (w.getIdx k).superposition.length ∧
      ((w.getIdx k).superposition.Nodup → (w'.getIdx k).superposition.Nodup) ∧
      ∀ m ∈ (w'.getIdx k).superposition, m ∈ (w.getIdx k).superposition) := by
  refine ⟨fun w k hk => by rw [Wave.initialize_getIdx w hk], ?_, ?_⟩
  · intro fuel w rng s hWF hres
    cases fuel with
    | zero =>
      rcases hres with h | h <;> (rw [Wave.recurse_zero] at h; exact RecRes.noConfusion h)
    | succ f =>
      by_cases hc : w.isCollapsed = true
      · rcases hres with h | h
        · rw [Wave.recurse_succ_collapsed f w rng hc] at h
          injection h with h'
          subst h'
          exact Wave.Shrinks.refl w
        · rw [Wave.recurse_succ_collapsed f w rng hc] at h
          exact RecRes.noConfusion h
      · rcases hH : w.history with _ | ⟨a, t⟩
        · cases hcrs : w.collapseRandomSlot rng with
          | none =>
            rcases hres with h | h <;>
              (rw [Wave.recurse_succ_start f w rng hc hH, hcrs] at h;
                exact RecRes.noConfusion h)
          | some x =>
            obtain ⟨i, w1, rng1⟩ := x
            have hspec := recurse_start_spec f w rng hWF hH (by simpa using hc) i w1 rng1 hcrs
            rcases hres with h | h
            · obtain ⟨m, _, _, _, _, _, hsh, _⟩ := hspec.1 s h
              exact hsh
            · exact (hspec.2.1 s h).1
        · have hm := recurse_master (f + 1) w rng hWF (by rw [hH]; simp)
          rcases hres with h | h
          · exact (hm.1.1 s h).2.2.1
          · exact (hm.1.2 s h).1
  · intro w w' hsh k
    obtain ⟨_, _, hsub⟩ := hsh.2.2.2.2 k
    exact ⟨hsub.length_le, fun hnd => List.Nodup.sublist hsub hnd,
      fun m hm => hsub.subset hm⟩

/-- Witness for C4: after initializing the 2×1 wave, slot 0 carries the full
catalog. -/
theorem claim_C4_witness :
    (waveTwoByOne.initializeSlots.getIdx 0).superposition = waveTwoByOne.input :=
  claim_C4.1 waveTwoByOne 0 (by decide)

/-- Claim C6: `Recurse` terminates on every finite well-formed grid: with
fuel exceeding the number of slots (`width*height`, the bound on recursion
depth), the modelled run never exhausts its fuel — each recursive call
pushes a previously unvisited slot (`HasVisited` tests history membership
by slot identity), so the depth is bounded by the slot count, and the loop
ranges over the four directions.  At the top of an attempt (empty history)
the claim additionally needs the modelled random stream to suffice for
`CollapseRandomSlot`'s rejection-sampling loop. -/
theorem claim_C6 (fuel : Nat) (w : Wave M) (rng : List Nat) (hWF : w.WF)
    (hstart : w.history = [] →
      w.isCollapsed = true ∨ (w.collapseRandomSlot rng).isSome = true)
    (hfuel : w.possibilitySpace.length + 1 ≤ fuel) :
    Wave.recurse fuel w rng ≠ .giveup := by
  cases fuel with
  | zero => exact absurd hfuel (by omega)
  | succ f =>
    by_cases hc : w.isCollapsed = true
    · rw [Wave.recurse_succ_collapsed f w rng hc]
      exact fun h => RecRes.noConfusion h
    · rcases hH : w.history with _ | ⟨a, t⟩
      · rcases hstart hH with h | h
        · exact absurd h hc
        · obtain ⟨⟨i, w1, rng1⟩, hcrs⟩ := Option.isSome_iff_exists.mp h
          exact (recurse_start_spec f w rng hWF hH (by simpa using hc) i w1 rng1 hcrs).2.2
            (by omega)
      · refine (recurse_master (f + 1) w rng hWF (by rw [hH]; simp)).2 ?_
        omega

/-- Witness for C6: one attempt on the fresh 2×2 grid terminates within
fuel 5 = 4 slots + 1. -/
theorem claim_C6_witness : Wave.recurse 5 waveTwoByTwo [0, 0] ≠ .giveup :=
  claim_C6 5 waveTwoByTwo [0, 0] (by decide) (fun _ => Or.inr (by decide)) (by decide)

/-- Claim C9: push/pop balance of the history stack — a successful
`Recurse` call that starts with an empty history on a not-fully-collapsed
grid ends with exactly one history entry: the initially collapsed slot,
which was reduced from more than one candidate to a single member of its
previous superposition (every neighbor pushed during propagation was popped
before returning; the surviving entry is removed only by `Collapse`'s reset
between attempts, see C5). -/
theorem claim_C9 (fuel : Nat) (w : Wave M) (rng : List Nat) (s : RState M)
    (hWF : w.WF) (hH : w.history = []) (hnc : w.isCollapsed = false)
    (hok : Wave.recurse fuel w rng = .ok s) :
    ∃ i m, s.wave.history = [i] ∧ i < w.possibilitySpace.length ∧
      (s.wave.getIdx i).superposition = [m] ∧ m ∈ (w.getIdx i).superposition ∧
      1 < (w.getIdx i).superposition.length := by
  cases fuel with
  | zero =>
    rw [Wave.recurse_zero] at hok
    exact RecRes.noConfusion hok
  | succ f =>
    cases hcrs : w.collapseRandomSlot rng with
    | none =>
      rw [Wave.recurse_succ_start f w rng (by simp [hnc]) hH, hcrs] at hok
      exact RecRes.noConfusion hok
    | some x =>
      obtain ⟨i, w1, rng1⟩ := x
      obtain ⟨m, h1, h2, h3, h4, h5, _, _⟩ :=
        (recurse_start_spec f w rng hWF hH hnc i w1 rng1 hcrs).1 s hok
      exact ⟨i, m, h1, h2, h3, h4, h5⟩

/-- Witness for C9 on the 1×1 scenario: the successful attempt leaves
exactly the collapsed slot on the history stack. -/
theorem claim_C9_witness :
    ∃ i m, waveOneByOneOk.history = [i] ∧ i < waveOneByOne.possibilitySpace.length ∧
      (waveOneByOneOk.getIdx i).superposition = [m] ∧
      m ∈ (waveOneByOne.getIdx i).superposition ∧
      1 < (waveOneByOne.getIdx i).superposition.length :=
  claim_C9 5 waveOneByOne [0, 1] ⟨waveOneByOneOk, []⟩ (by decide) rfl (by decide) rfl

end Wfc
